import Mathlib

/-!
Verification of the statement splitter and classifier of the
`sqltools-cloud-spanner-driver` repository (`SpannerQueryParser`).

The repository contains two observed versions of `parser.ts`.  Their
scanning loops (`getStatements`, `getFirstKeywordOutsideComments`) are
identical; the two versions differ only in `getQueryParts` (one slices the
statement up to and including the delimiter index, the other one character
short).  We embed the shared scanning logic once and give both versions of
the slicing / top-level `parse`.

Characters are modelled as Lean `Char` (JS strings are split into code
points by `Array.from`, matching `String.data`).  JS `trim` is modelled by
stripping `Char.isWhitespace` characters from both ends, and the single
character test `char.trim() == ''` by `Char.isWhitespace`.  Loops are
modelled by fuel-indexed structural recursion; a fuel of `length + 1` is
always sufficient because the loop index strictly increases (proved below).
-/

namespace Spanner

/-- Character constants written via code points to keep the file plain:
92 = backslash, 39 = single quote, 34 = double quote, 96 = backtick,
10 = newline. -/
def bslash : Char := Char.ofNat 92

def squote : Char := Char.ofNat 39

def dquote : Char := Char.ofNat 34

def btick : Char := Char.ofNat 96

def nl : Char := Char.ofNat 10

/-- The scanner state of `getStatements`: the five mutable variables
`isInComment`, `commentChar`, `isInString`, `stringChar`,
`isInTripleQuotes` of the source, kept as independent fields exactly as in
the code (no tagged union). -/
structure ScanState where
  isInComment : Bool
  commentChar : Option Char
  isInString : Bool
  stringChar : Option Char
  isInTripleQuotes : Bool
deriving DecidableEq, Repr

/-- The initial scanner state: all flags false, no remembered characters. -/
def initScan : ScanState :=
  { isInComment := false, commentChar := none, isInString := false,
    stringChar := none, isInTripleQuotes := false }

/-- The result of one iteration of the `getStatements` for-loop:
either the loop breaks with `splittingIndex` (`split`), or continues at a
new index with a new state (`next`), or the index has run off the end
(`stop`). -/
inductive StepRes where
  | split (j : Nat)
  | next (i : Nat) (st : ScanState)
  | stop
deriving DecidableEq, Repr

/-- `previousChar` of the source loops: `null` at index 0, otherwise
`charArray[index - 1]` (recomputed from the array each iteration, which is
what the mutable variable holds because the loop index only increases). -/
def prevCh (cs : List Char) (i : Nat) : Option Char :=
  if i = 0 then none else cs.get? (i - 1)

/-- `char = charArray[index]`; only used under the bound `i < cs.length`,
where the default is irrelevant. -/
def chAt (cs : List Char) (i : Nat) : Char :=
  cs.getD i (Char.ofNat 0)

/-- One iteration of the scanning for-loop of
`SpannerQueryParser.getStatements` (`part_001`, both versions, the bodies
are identical).  The branches appear in source order: string open (with
triple-quote lookahead), comment open (guarded only by
`isInString == false`), comment close (no index increment for the closing
slash in this loop), string close (with triple-quote lookahead), delimiter
hit (`splittingIndex = index + 1`), otherwise continue. -/
def scanStep (cs : List Char) (delim : Char) (i : Nat) (st : ScanState) :
    StepRes :=
  if i < cs.length then
    if prevCh cs i ≠ some bslash ∧
        (chAt cs i = squote ∨ chAt cs i = dquote ∨ chAt cs i = btick) ∧
        st.isInString = false ∧ st.isInComment = false then
      if i + 2 < cs.length ∧ cs.get? (i + 1) = some (chAt cs i) ∧
          cs.get? (i + 2) = some (chAt cs i) then
        .next (i + 3)
          { st with isInString := true, stringChar := some (chAt cs i),
                    isInTripleQuotes := true }
      else
        .next (i + 1)
          { st with isInString := true, stringChar := some (chAt cs i) }
    else if ((chAt cs i = '#' ∧ cs.get? (i + 1) = some ' ') ∨
        (chAt cs i = '-' ∧ cs.get? (i + 1) = some '-') ∨
        (chAt cs i = '/' ∧ cs.get? (i + 1) = some '*')) ∧
        st.isInString = false then
      .next (i + 1)
        { st with isInComment := true, commentChar := some (chAt cs i) }
    else if st.isInComment = true ∧
        (((st.commentChar = some '#' ∨ st.commentChar = some '-') ∧
            chAt cs i = nl) ∨
          (st.commentChar = some '/' ∧ chAt cs i = '*' ∧
            cs.get? (i + 1) = some '/')) then
      .next (i + 1) { st with isInComment := false, commentChar := none }
    else if prevCh cs i ≠ some bslash ∧ some (chAt cs i) = st.stringChar ∧
        st.isInString = true then
      if st.isInTripleQuotes then
        if i + 2 < cs.length ∧ cs.get? (i + 1) = some (chAt cs i) ∧
            cs.get? (i + 2) = some (chAt cs i) then
          .next (i + 3)
            { st with isInString := false, stringChar := none,
                      isInTripleQuotes := false }
        else
          .next (i + 1) st
      else
        .next (i + 1) { st with isInString := false, stringChar := none }
    else if (chAt cs i).toLower = delim.toLower ∧ st.isInString = false ∧
        st.isInComment = false then
      .split (i + 1)
    else
      .next (i + 1) st
  else
    .stop

/-- Fuel-indexed iteration of the `getStatements` scanning loop: returns
`some splittingIndex` when the loop breaks at a delimiter hit, `none` when
the index runs off the end of the input. -/
def stGo (cs : List Char) (delim : Char) : Nat → Nat → ScanState → Option Nat
  | 0, _, _ => none
  | fuel + 1, i, st =>
    match scanStep cs delim i st with
    | .split j => some j
    | .stop => none
    | .next i' st' => stGo cs delim fuel i' st'

/-- The scanning loop of `getStatements` from position `i` in state `st`;
fuel `cs.length + 1` is always sufficient (the index strictly increases
each iteration). -/
def loopFrom (cs : List Char) (delim : Char) (i : Nat) (st : ScanState) :
    Option Nat :=
  stGo cs delim (cs.length + 1) i st

/-- JS `trim` on a character list: whitespace stripped from both ends. -/
def trimL (l : List Char) : List Char :=
  ((l.dropWhile Char.isWhitespace).reverse.dropWhile Char.isWhitespace).reverse

/-- `SpannerQueryParser.getQueryParts` of the first observed version
(`part_001` lines 196-206): the statement is
`query.substring(0, splittingIndex)` (delimiter included), trimmed; the
rest is `query.substring(splittingIndex + numChars)`. -/
def getQueryParts_v1 (query : List Char) (splittingIndex numChars : Nat) :
    List Char × Option (List Char) :=
  (trimL (query.take splittingIndex), some (query.drop (splittingIndex + numChars)))

/-- `SpannerQueryParser.getQueryParts` of the second observed version
(`part_001` lines 461-471): the statement is
`query.substring(0, splittingIndex - 1)` (delimiter excluded), trimmed. -/
def getQueryParts_v2 (query : List Char) (splittingIndex numChars : Nat) :
    List Char × Option (List Char) :=
  (trimL (query.take (splittingIndex - 1)), some (query.drop (splittingIndex + numChars)))

/-- `SpannerQueryParser.getStatements`, first version: scan for the first
delimiter hit; on a hit return `getQueryParts(query, index + 1, 0)`,
otherwise return the trimmed query and `null`. -/
def getStatements_v1 (query : List Char) (delim : Char) :
    List Char × Option (List Char) :=
  match loopFrom query delim 0 initScan with
  | some j => getQueryParts_v1 query j 0
  | none => (trimL query, none)

/-- `SpannerQueryParser.getStatements`, second version (identical loop,
different slice). -/
def getStatements_v2 (query : List Char) (delim : Char) :
    List Char × Option (List Char) :=
  match loopFrom query delim 0 initScan with
  | some j => getQueryParts_v2 query j 0
  | none => (trimL query, none)

/-- Fuel-indexed iteration of the `parse` while-loop, first version: take
the next statement and rest from `getStatements`; push the statement if
its trim is non-empty; stop when the rest is `null` or trims to empty. -/
def parseGo_v1 : Nat → List Char → List (List Char) → List (List Char)
  | 0, _, acc => acc
  | fuel + 1, rest, acc =>
    let sr := getStatements_v1 rest ';'
    let acc' := if trimL sr.1 = [] then acc else acc ++ [sr.1]
    match sr.2 with
    | none => acc'
    | some r => if trimL r = [] then acc' else parseGo_v1 fuel r acc'

/-- Fuel-indexed iteration of the `parse` while-loop, second version. -/
def parseGo_v2 : Nat → List Char → List (List Char) → List (List Char)
  | 0, _, acc => acc
  | fuel + 1, rest, acc =>
    let sr := getStatements_v2 rest ';'
    let acc' := if trimL sr.1 = [] then acc else acc ++ [sr.1]
    match sr.2 with
    | none => acc'
    | some r => if trimL r = [] then acc' else parseGo_v2 fuel r acc'

/-- `SpannerQueryParser.parse`, first version: split a script on
statement-terminating semicolons.  Fuel `length + 1` is always sufficient
because the rest strictly shrinks each round (proved below). -/
def parse_v1 (query : List Char) : List (List Char) :=
  parseGo_v1 (query.length + 1) query []

/-- `SpannerQueryParser.parse`, second version. -/
def parse_v2 (query : List Char) : List (List Char) :=
  parseGo_v2 (query.length + 1) query []

/-- Fuel-indexed iteration of the `getFirstKeywordOutsideComments`
for-loop (`part_001`, identical in both versions).  Branches in source
order: comment open (unguarded: it fires even while already in a
comment), comment close (the closing slash of a slash-star comment is
consumed by an extra `index++` here), then outside comments whitespace
either skips (empty keyword) or returns the keyword, and any other
character is appended to the keyword. -/
def kwGo (cs : List Char) : Nat → Nat → Bool → Option Char → List Char → List Char
  | 0, _, _, _, kw => kw
  | fuel + 1, i, isInComment, commentChar, kw =>
    if i < cs.length then
      if (chAt cs i = '#' ∧ cs.get? (i + 1) = some ' ') ∨
          (chAt cs i = '-' ∧ cs.get? (i + 1) = some '-') ∨
          (chAt cs i = '/' ∧ cs.get? (i + 1) = some '*') then
        kwGo cs fuel (i + 1) true (some (chAt cs i)) kw
      else if isInComment = true ∧
          (((commentChar = some '#' ∨ commentChar = some '-') ∧
              chAt cs i = nl) ∨
            (commentChar = some '/' ∧ chAt cs i = '*' ∧
              cs.get? (i + 1) = some '/')) then
        if commentChar = some '/' then
          kwGo cs fuel (i + 2) false none kw
        else
          kwGo cs fuel (i + 1) false none kw
      else if isInComment = false then
        if (chAt cs i).isWhitespace then
          if kw = [] then kwGo cs fuel (i + 1) isInComment commentChar kw
          else kw
        else
          kwGo cs fuel (i + 1) isInComment commentChar (kw ++ [chAt cs i])
      else
        kwGo cs fuel (i + 1) isInComment commentChar kw
    else
      kw

/-- `SpannerQueryParser.getFirstKeywordOutsideComments`. -/
def getFirstKeywordOutsideComments (sql : List Char) : List Char :=
  kwGo sql (sql.length + 1) 0 false none []

/-- JS `String.prototype.startsWith` on character lists. -/
def startsW : List Char → List Char → Bool
  | _, [] => true
  | [], _ :: _ => false
  | c :: cs, p :: ps => c = p && startsW cs ps

/-- The statement types of the source enum. -/
inductive StatementType where
  | UNSPECIFIED
  | QUERY
  | DML
  | DDL
deriving DecidableEq, Repr

/-- The `statement` local of `getStatementType`: the first keyword outside
comments, uppercased (`toUpperCase` modelled by `Char.toUpper`). -/
def kwUpper (sql : List Char) : List Char :=
  (getFirstKeywordOutsideComments sql).map Char.toUpper

/-- `SpannerQueryParser.getStatementType`: empty (falsy) input is
`UNSPECIFIED`; otherwise the uppercased first keyword outside comments is
tested with `startsWith` against SELECT/WITH, then INSERT/UPDATE/DELETE,
then CREATE/ALTER/DROP, in source order. -/
def getStatementType (sql : List Char) : StatementType :=
  if sql = [] then .UNSPECIFIED
  else if startsW (kwUpper sql) ("SELECT".data) = true ∨
      startsW (kwUpper sql) ("WITH".data) = true then .QUERY
  else if startsW (kwUpper sql) ("INSERT".data) = true ∨
      startsW (kwUpper sql) ("UPDATE".data) = true ∨
      startsW (kwUpper sql) ("DELETE".data) = true then .DML
  else if startsW (kwUpper sql) ("CREATE".data) = true ∨
      startsW (kwUpper sql) ("ALTER".data) = true ∨
      startsW (kwUpper sql) ("DROP".data) = true then .DDL
  else .UNSPECIFIED

/-- String-level wrapper for the first version of `parse`. -/
def parseS_v1 (query : String) : List String :=
  (parse_v1 query.data).map fun l => String.mk l

/-- String-level wrapper for the second version of `parse`. -/
def parseS_v2 (query : String) : List String :=
  (parse_v2 query.data).map fun l => String.mk l

/-- String-level wrapper for `getStatementType`. -/
def getStatementTypeS (sql : String) : StatementType :=
  getStatementType sql.data


/-! ### Basic facts about the scanning step and loop -/

theorem scanStep_next_bounds {cs : List Char} {d : Char} {i : Nat}
    {st : ScanState} {i' : Nat} {st' : ScanState}
    (h : scanStep cs d i st = .next i' st') :
    i < cs.length ∧ (i' = i + 1 ∨ i' = i + 3) := by
  unfold scanStep at h
  split_ifs at h <;>
    first
      | (injection h with h1 h2; constructor <;> omega)
      | exact StepRes.noConfusion h

theorem scanStep_stop_iff {cs : List Char} {d : Char} {i : Nat}
    {st : ScanState} :
    scanStep cs d i st = .stop ↔ cs.length ≤ i := by
  constructor
  · intro h
    unfold scanStep at h
    split_ifs at h <;> first | exact StepRes.noConfusion h | omega
  · intro h
    unfold scanStep
    rw [if_neg (by omega)]

theorem scanStep_split {cs : List Char} {d : Char} {i : Nat}
    {st : ScanState} {j : Nat}
    (h : scanStep cs d i st = .split j) :
    j = i + 1 ∧ i < cs.length ∧
      (chAt cs i).toLower = d.toLower ∧
      st.isInString = false ∧ st.isInComment = false := by
  unfold scanStep at h
  split_ifs at h <;>
    first
      | exact StepRes.noConfusion h
      | (injection h with h1
         refine ⟨h1.symm, by assumption, ?_⟩
         simp_all)

theorem stGo_mono {cs : List Char} {d : Char} :
    ∀ {f₁ f₂ i : Nat} {st : ScanState},
      cs.length - i < f₁ → cs.length - i < f₂ →
      stGo cs d f₁ i st = stGo cs d f₂ i st := by
  intro f₁
  induction f₁ with
  | zero => intro f₂ i st h1 _; omega
  | succ a ih =>
    intro f₂ i st h1 h2
    match f₂, h2 with
    | b + 1, h2 =>
      show stGo cs d (a + 1) i st = stGo cs d (b + 1) i st
      unfold stGo
      cases hs : scanStep cs d i st with
      | split j => rfl
      | stop => rfl
      | next i' st' =>
        obtain ⟨hin, hstep⟩ := scanStep_next_bounds hs
        exact ih (by omega) (by omega)

theorem loopFrom_next {cs : List Char} {d : Char} {i : Nat} {st : ScanState}
    {i' : Nat} {st' : ScanState}
    (h : scanStep cs d i st = .next i' st') :
    loopFrom cs d i st = loopFrom cs d i' st' := by
  obtain ⟨hin, hstep⟩ := scanStep_next_bounds h
  have e1 : loopFrom cs d i st = stGo cs d (cs.length + 1 + 1) i st :=
    stGo_mono (by omega) (by omega)
  have e2 : stGo cs d (cs.length + 1 + 1) i st = loopFrom cs d i' st' := by
    show (match scanStep cs d i st with
      | .split j => some j
      | .stop => none
      | .next i' st' => stGo cs d (cs.length + 1) i' st') = _
    rw [h]
    rfl
  exact e1.trans e2

theorem loopFrom_split {cs : List Char} {d : Char} {i : Nat} {st : ScanState}
    {j : Nat} (h : scanStep cs d i st = .split j) :
    loopFrom cs d i st = some j := by
  unfold loopFrom stGo
  rw [h]

theorem loopFrom_stop {cs : List Char} {d : Char} {i : Nat} {st : ScanState}
    (h : cs.length ≤ i) :
    loopFrom cs d i st = none := by
  unfold loopFrom stGo
  rw [scanStep_stop_iff.mpr h]


/-- One loop iteration viewed as a transition on (index, state) pairs. -/
def stepRel (cs : List Char) (d : Char) (p q : Nat × ScanState) : Prop :=
  scanStep cs d p.1 p.2 = .next q.1 q.2

/-- The (index, state) pairs visited by the scanning loop, as the
reflexive-transitive closure of single iterations. -/
def Reaches (cs : List Char) (d : Char) :
    Nat × ScanState → Nat × ScanState → Prop :=
  Relation.ReflTransGen (stepRel cs d)

theorem stGo_some_reach {cs : List Char} {d : Char} :
    ∀ {fuel i : Nat} {st : ScanState} {j : Nat},
      stGo cs d fuel i st = some j →
      ∃ k st', Reaches cs d (i, st) (k, st') ∧
        scanStep cs d k st' = .split j := by
  intro fuel
  induction fuel with
  | zero => intro i st j h; exact absurd h (by simp [stGo])
  | succ a ih =>
    intro i st j h
    rw [show stGo cs d (a + 1) i st = (match scanStep cs d i st with
      | .split j => some j
      | .stop => none
      | .next i' st' => stGo cs d a i' st') from rfl] at h
    cases hs : scanStep cs d i st with
    | split j' =>
      rw [hs] at h
      simp only [Option.some.injEq] at h
      exact ⟨i, st, Relation.ReflTransGen.refl, h ▸ hs⟩
    | stop => rw [hs] at h; exact Option.noConfusion h
    | next i' st' =>
      rw [hs] at h
      obtain ⟨k, st'', hr, hsplit⟩ := ih h
      exact ⟨k, st'', Relation.ReflTransGen.head (show stepRel cs d (i, st) (i', st') from hs) hr, hsplit⟩

theorem reaches_le {cs : List Char} {d : Char} {p q : Nat × ScanState}
    (h : Reaches cs d p q) : p.1 ≤ q.1 := by
  induction h with
  | refl => exact Nat.le_refl _
  | tail _ hstep ih =>
    rename_i b c _
    have := scanStep_next_bounds hstep
    omega

theorem loopFrom_some_reach {cs : List Char} {d : Char} {i : Nat}
    {st : ScanState} {j : Nat} (h : loopFrom cs d i st = some j) :
    ∃ k st', Reaches cs d (i, st) (k, st') ∧
      scanStep cs d k st' = .split j :=
  stGo_some_reach h

theorem loopFrom_some_bounds {cs : List Char} {d : Char} {i : Nat}
    {st : ScanState} {j : Nat} (h : loopFrom cs d i st = some j) :
    i < j ∧ j ≤ cs.length := by
  obtain ⟨k, st', hr, hsplit⟩ := loopFrom_some_reach h
  have hk := reaches_le hr
  obtain ⟨hj, hin, -⟩ := scanStep_split hsplit
  simp only at hk
  omega

/-- The string and comment flags are never simultaneously set after one
iteration, provided they were not before. -/
theorem scanStep_preserves_excl {cs : List Char} {d : Char} {i : Nat}
    {st : ScanState} {i' : Nat} {st' : ScanState}
    (h : scanStep cs d i st = .next i' st')
    (hst : ¬(st.isInString = true ∧ st.isInComment = true)) :
    ¬(st'.isInString = true ∧ st'.isInComment = true) := by
  unfold scanStep at h
  split_ifs at h <;>
    first
      | exact StepRes.noConfusion h
      | (injection h with h1 h2; subst h2; simp_all)

/-- The remembered string character is always absent or one of the three
quote characters. -/
def goodStringChar (st : ScanState) : Prop :=
  st.stringChar = none ∨ st.stringChar = some squote ∨
    st.stringChar = some dquote ∨ st.stringChar = some btick

theorem scanStep_preserves_good {cs : List Char} {d : Char} {i : Nat}
    {st : ScanState} {i' : Nat} {st' : ScanState}
    (h : scanStep cs d i st = .next i' st')
    (hst : goodStringChar st) : goodStringChar st' := by
  unfold scanStep at h
  unfold goodStringChar at hst ⊢
  split_ifs at h <;>
    first
      | exact StepRes.noConfusion h
      | (injection h with h1 h2; subst h2; simp_all) <;> tauto


/-- Invariant along the loop: reachable states never have both flags. -/
theorem reaches_excl {cs : List Char} {d : Char} {p : Nat × ScanState}
    (h : Reaches cs d ((0 : Nat), initScan) p) :
    ¬(p.2.isInString = true ∧ p.2.isInComment = true) := by
  induction h with
  | refl => simp [initScan]
  | tail _ hstep ih => exact scanStep_preserves_excl hstep ih

theorem reaches_good {cs : List Char} {d : Char} {p : Nat × ScanState}
    (h : Reaches cs d ((0 : Nat), initScan) p) : goodStringChar p.2 := by
  induction h with
  | refl => left; rfl
  | tail _ hstep ih => exact scanStep_preserves_good hstep ih

theorem toLower_eq_semi {c : Char} (h : c.toLower = ';') : c = ';' := by
  rw [show Char.toLower c
    = if c.toNat ≥ 65 ∧ c.toNat ≤ 90 then Char.ofNat (c.toNat + 32) else c
    from rfl] at h
  split at h
  case isTrue hc =>
    exfalso
    have hv : (Char.toNat c + 32).isValidChar := by
      left
      have : Char.toNat c ≤ 90 := hc.2
      omega
    rw [Char.ofNat, dif_pos hv] at h
    have h59 : (Char.ofNatAux (Char.toNat c + 32) hv).toNat = 59 := by
      rw [h]; rfl
    have hself : (Char.ofNatAux (Char.toNat c + 32) hv).toNat
        = Char.toNat c + 32 := rfl
    omega
  case isFalse => exact h

/-! ### Facts about trimming -/

theorem rdropWhile_append_rtakeWhile (p : Char → Bool) (l : List Char) :
    l.rdropWhile p ++ l.rtakeWhile p = l := by
  rw [List.rdropWhile, List.rtakeWhile, ← List.reverse_append,
    List.takeWhile_append_dropWhile, List.reverse_reverse]

theorem trimL_eq (l : List Char) :
    trimL l = List.rdropWhile Char.isWhitespace
      (l.dropWhile Char.isWhitespace) := rfl

theorem trimL_decomp (l : List Char) :
    ∃ w₁ w₂, l = w₁ ++ trimL l ++ w₂ ∧
      (∀ c ∈ w₁, c.isWhitespace) ∧ (∀ c ∈ w₂, c.isWhitespace) := by
  refine ⟨l.takeWhile Char.isWhitespace,
    (l.dropWhile Char.isWhitespace).rtakeWhile Char.isWhitespace, ?_, ?_, ?_⟩
  · rw [trimL_eq, List.append_assoc, rdropWhile_append_rtakeWhile,
      List.takeWhile_append_dropWhile]
  · exact fun c hc => List.mem_takeWhile_imp hc
  · exact fun c hc => List.mem_rtakeWhile_imp hc

theorem dropWhile_head_not {p : Char → Bool} {l : List Char} {c : Char}
    {rest : List Char} (h : l.dropWhile p = c :: rest) : p c = false := by
  have := List.head?_dropWhile_not p l
  rw [h] at this
  simpa using this

theorem dropWhile_trimL (l : List Char) :
    (trimL l).dropWhile Char.isWhitespace = trimL l := by
  rw [trimL_eq]
  cases hy : (l.dropWhile Char.isWhitespace).rdropWhile Char.isWhitespace with
  | nil => rfl
  | cons c rest =>
    obtain ⟨t, ht⟩ := List.rdropWhile_prefix Char.isWhitespace
      (l.dropWhile Char.isWhitespace)
    rw [hy] at ht
    have hx : l.dropWhile Char.isWhitespace = c :: (rest ++ t) := by
      rw [← ht]; simp
    have hc : Char.isWhitespace c = false := dropWhile_head_not hx
    rw [List.dropWhile_cons_of_neg (by simp [hc])]

theorem trimL_idem (l : List Char) : trimL (trimL l) = trimL l := by
  rw [trimL_eq, dropWhile_trimL, trimL_eq, List.rdropWhile_idempotent]

/-! ### The rest of a split is strictly shorter; parse fuel is irrelevant -/

theorem getStatements_v2_rest_lt {q r : List Char}
    (h : (getStatements_v2 q ';').2 = some r) : r.length < q.length := by
  unfold getStatements_v2 at h
  cases hl : loopFrom q ';' 0 initScan with
  | none => rw [hl] at h; exact Option.noConfusion h
  | some j =>
    rw [hl] at h
    obtain ⟨hj, hle⟩ := loopFrom_some_bounds hl
    unfold getQueryParts_v2 at h
    simp only [Option.some.injEq] at h
    subst h
    simp only [List.length_drop]
    omega

theorem getStatements_v1_rest_lt {q r : List Char}
    (h : (getStatements_v1 q ';').2 = some r) : r.length < q.length := by
  unfold getStatements_v1 at h
  cases hl : loopFrom q ';' 0 initScan with
  | none => rw [hl] at h; exact Option.noConfusion h
  | some j =>
    rw [hl] at h
    obtain ⟨hj, hle⟩ := loopFrom_some_bounds hl
    unfold getQueryParts_v1 at h
    simp only [Option.some.injEq] at h
    subst h
    simp only [List.length_drop]
    omega

theorem parseGo_v2_mono :
    ∀ {f₁ f₂ : Nat} {rest : List Char} {acc : List (List Char)},
      rest.length < f₁ → rest.length < f₂ →
      parseGo_v2 f₁ rest acc = parseGo_v2 f₂ rest acc := by
  intro f₁
  induction f₁ with
  | zero => intro f₂ rest acc h1 _; omega
  | succ a ih =>
    intro f₂ rest acc h1 h2
    match f₂, h2 with
    | b + 1, h2 =>
      simp only [parseGo_v2]
      generalize (if trimL (getStatements_v2 rest ';').1 = [] then acc
        else acc ++ [(getStatements_v2 rest ';').1]) = acc2
      cases hsr : (getStatements_v2 rest ';').2 with
      | none => rfl
      | some r =>
        have hlt := getStatements_v2_rest_lt hsr
        show (if trimL r = [] then acc2 else parseGo_v2 a r acc2)
          = (if trimL r = [] then acc2 else parseGo_v2 b r acc2)
        split_ifs with hr
        · rfl
        · exact ih (by omega) (by omega)

theorem parseGo_v1_mono :
    ∀ {f₁ f₂ : Nat} {rest : List Char} {acc : List (List Char)},
      rest.length < f₁ → rest.length < f₂ →
      parseGo_v1 f₁ rest acc = parseGo_v1 f₂ rest acc := by
  intro f₁
  induction f₁ with
  | zero => intro f₂ rest acc h1 _; omega
  | succ a ih =>
    intro f₂ rest acc h1 h2
    match f₂, h2 with
    | b + 1, h2 =>
      simp only [parseGo_v1]
      generalize (if trimL (getStatements_v1 rest ';').1 = [] then acc
        else acc ++ [(getStatements_v1 rest ';').1]) = acc2
      cases hsr : (getStatements_v1 rest ';').2 with
      | none => rfl
      | some r =>
        have hlt := getStatements_v1_rest_lt hsr
        show (if trimL r = [] then acc2 else parseGo_v1 a r acc2)
          = (if trimL r = [] then acc2 else parseGo_v1 b r acc2)
        split_ifs with hr
        · rfl
        · exact ih (by omega) (by omega)

/-- Every element of the output of the parse loop either was in the
accumulator or is an emitted statement whose trim is non-empty. -/
theorem parseGo_v2_all {P : List Char → Prop}
    (hstmt : ∀ q : List Char, trimL (getStatements_v2 q ';').1 ≠ [] →
      P (getStatements_v2 q ';').1) :
    ∀ {fuel : Nat} {rest : List Char} {acc : List (List Char)},
      (∀ s ∈ acc, P s) → ∀ s ∈ parseGo_v2 fuel rest acc, P s := by
  intro fuel
  induction fuel with
  | zero => intro rest acc hacc s hs; exact hacc s hs
  | succ a ih =>
    intro rest acc hacc s hs
    simp only [parseGo_v2] at hs
    have hacc' : ∀ x ∈ (if trimL (getStatements_v2 rest ';').1 = [] then acc
        else acc ++ [(getStatements_v2 rest ';').1]), P x := by
      split_ifs with hemp
      · exact hacc
      · intro x hx
        rcases List.mem_append.mp hx with hx | hx
        · exact hacc x hx
        · rcases List.mem_singleton.mp hx with rfl
          exact hstmt rest hemp
    cases hsr : (getStatements_v2 rest ';').2 with
    | none => rw [hsr] at hs; exact hacc' s hs
    | some r =>
      rw [hsr] at hs
      have hs' : s ∈ (if trimL r = []
          then (if trimL (getStatements_v2 rest ';').1 = [] then acc
            else acc ++ [(getStatements_v2 rest ';').1])
          else parseGo_v2 a r
            (if trimL (getStatements_v2 rest ';').1 = [] then acc
              else acc ++ [(getStatements_v2 rest ';').1])) := hs
      by_cases hr : trimL r = []
      · rw [if_pos hr] at hs'
        exact hacc' s hs'
      · rw [if_neg hr] at hs'
        exact ih hacc' s hs'

theorem parseGo_v1_all {P : List Char → Prop}
    (hstmt : ∀ q : List Char, trimL (getStatements_v1 q ';').1 ≠ [] →
      P (getStatements_v1 q ';').1) :
    ∀ {fuel : Nat} {rest : List Char} {acc : List (List Char)},
      (∀ s ∈ acc, P s) → ∀ s ∈ parseGo_v1 fuel rest acc, P s := by
  intro fuel
  induction fuel with
  | zero => intro rest acc hacc s hs; exact hacc s hs
  | succ a ih =>
    intro rest acc hacc s hs
    simp only [parseGo_v1] at hs
    have hacc' : ∀ x ∈ (if trimL (getStatements_v1 rest ';').1 = [] then acc
        else acc ++ [(getStatements_v1 rest ';').1]), P x := by
      split_ifs with hemp
      · exact hacc
      · intro x hx
        rcases List.mem_append.mp hx with hx | hx
        · exact hacc x hx
        · rcases List.mem_singleton.mp hx with rfl
          exact hstmt rest hemp
    cases hsr : (getStatements_v1 rest ';').2 with
    | none => rw [hsr] at hs; exact hacc' s hs
    | some r =>
      rw [hsr] at hs
      have hs' : s ∈ (if trimL r = []
          then (if trimL (getStatements_v1 rest ';').1 = [] then acc
            else acc ++ [(getStatements_v1 rest ';').1])
          else parseGo_v1 a r
            (if trimL (getStatements_v1 rest ';').1 = [] then acc
              else acc ++ [(getStatements_v1 rest ';').1])) := hs
      by_cases hr : trimL r = []
      · rw [if_pos hr] at hs'
        exact hacc' s hs'
      · rw [if_neg hr] at hs'
        exact ih hacc' s hs'

/-! ### Whitespace characters are inert for the scanner in its initial state -/

theorem ws_char_cases {c : Char} (h : c.isWhitespace = true) :
    c = ' ' ∨ c = Char.ofNat 9 ∨ c = Char.ofNat 13 ∨ c = nl := by
  unfold Char.isWhitespace at h
  simp only [Bool.or_eq_true, decide_eq_true_eq] at h
  rcases h with ((h | h) | h) | h
  · exact Or.inl h
  · exact Or.inr (Or.inl (by subst h; decide))
  · exact Or.inr (Or.inr (Or.inl (by subst h; decide)))
  · exact Or.inr (Or.inr (Or.inr (by subst h; decide)))

theorem scanStep_ws_init {cs : List Char} {i : Nat} (hin : i < cs.length)
    (hws : (chAt cs i).isWhitespace = true) :
    scanStep cs ';' i initScan = .next (i + 1) initScan := by
  have hfacts : (chAt cs i ≠ squote ∧ chAt cs i ≠ dquote ∧ chAt cs i ≠ btick) ∧
      (chAt cs i ≠ '#' ∧ chAt cs i ≠ '-' ∧ chAt cs i ≠ '/') ∧
      (chAt cs i).toLower ≠ Char.toLower ';' := by
    rcases ws_char_cases hws with h | h | h | h <;> rw [h] <;>
      exact ⟨⟨by decide, by decide, by decide⟩, ⟨by decide, by decide, by decide⟩,
        by decide⟩
  unfold scanStep
  rw [if_pos hin]
  rw [if_neg (by
    rintro ⟨-, hq, -⟩
    rcases hq with h | h | h
    · exact hfacts.1.1 h
    · exact hfacts.1.2.1 h
    · exact hfacts.1.2.2 h)]
  rw [if_neg (by
    rintro ⟨hq, -⟩
    rcases hq with ⟨h, -⟩ | ⟨h, -⟩ | ⟨h, -⟩
    · exact hfacts.2.1.1 h
    · exact hfacts.2.1.2.1 h
    · exact hfacts.2.1.2.2 h)]
  rw [if_neg (by rintro ⟨h, -⟩; exact absurd h (by simp [initScan]))]
  rw [if_neg (by rintro ⟨-, -, h⟩; exact absurd h (by simp [initScan]))]
  rw [if_neg (by rintro ⟨h, -⟩; exact hfacts.2.2 h)]

theorem loopFrom_ws_skip {cs : List Char} :
    ∀ {i : Nat}, i < cs.length → (chAt cs i).isWhitespace = true →
      loopFrom cs ';' i initScan = loopFrom cs ';' (i + 1) initScan :=
  fun hin hws => loopFrom_next (scanStep_ws_init hin hws)

/-! ### Scanning a trimmed slice simulates scanning the original script -/

theorem chAt_eq_get? (cs : List Char) (i : Nat) :
    chAt cs i = (cs.get? i).getD (Char.ofNat 0) := by
  simp [chAt, List.getD_eq_getElem?_getD]

theorem decomp_len {q w₁ core w₂ : List Char} {m : Nat}
    (hq : q.take m = w₁ ++ core ++ w₂) (hm : m ≤ q.length) :
    w₁.length + (core.length + w₂.length) = m := by
  have h := congrArg List.length hq
  simp only [List.length_take, List.length_append] at h
  omega

theorem align_get {q w₁ core w₂ : List Char} {m : Nat}
    (hq : q.take m = w₁ ++ core ++ w₂) (hm : m ≤ q.length)
    {k : Nat} (hk : k < core.length) :
    q.get? (w₁.length + k) = core.get? k := by
  have hlen := decomp_len hq hm
  have h1 : w₁.length + k < m := by omega
  rw [← List.get?_take h1, hq, List.append_assoc,
    List.get?_append_right (by omega : w₁.length ≤ w₁.length + k),
    show w₁.length + k - w₁.length = k from by omega,
    List.get?_append hk]

theorem align_get_w₁ {q w₁ core w₂ : List Char} {m : Nat}
    (hq : q.take m = w₁ ++ core ++ w₂) (hm : m ≤ q.length)
    {k : Nat} (hk : k < w₁.length) :
    q.get? k = w₁.get? k := by
  have hlen := decomp_len hq hm
  rw [← List.get?_take (show k < m from by omega), hq, List.append_assoc,
    List.get?_append (by omega : k < w₁.length)]

theorem boundary_char {q w₁ core w₂ : List Char} {m : Nat}
    (hq : q.take m = w₁ ++ core ++ w₂) (hm : m ≤ q.length)
    (hw₂ : ∀ c ∈ w₂, c.isWhitespace = true)
    (hdelim : m = q.length ∨
      ∃ c, q.get? m = some c ∧ c.toLower = Char.toLower ';')
    {c : Char} (hc : q.get? (w₁.length + core.length) = some c) :
    c.isWhitespace = true ∨ c.toLower = Char.toLower ';' := by
  have hlen := decomp_len hq hm
  cases hw : w₂ with
  | nil =>
    subst hw
    have hme : w₁.length + core.length = m := by simp at hlen; omega
    rw [hme] at hc
    rcases hdelim with hd | ⟨c', hc', hl⟩
    · rw [hd] at hc
      rw [List.get?_len_le (Nat.le_refl _)] at hc
      exact Option.noConfusion hc
    · rw [hc'] at hc
      have : c' = c := Option.some.inj hc
      exact Or.inr (this ▸ hl)
  | cons c0 rest =>
    left
    have hc0 : q.get? (w₁.length + core.length) = some c0 := by
      rw [← List.get?_take (show w₁.length + core.length < m from by
          rw [hw] at hlen; simp at hlen; omega), hq, List.append_assoc,
        List.get?_append_right (by omega : w₁.length ≤ w₁.length + core.length),
        show w₁.length + core.length - w₁.length = core.length from by omega,
        List.get?_append_right (Nat.le_refl _),
        show core.length - core.length = 0 from by omega, hw]
      rfl
    rw [hc0] at hc
    have : c = c0 := (Option.some.inj hc).symm
    subst this
    exact hw₂ c (by rw [hw]; exact List.mem_cons_self _ _)

theorem delim_char_facts {c : Char} (h : c.toLower = Char.toLower ';') :
    c ≠ squote ∧ c ≠ dquote ∧ c ≠ btick ∧ c ≠ '#' ∧ c ≠ '-' ∧ c ≠ '/' ∧
      c ≠ ' ' ∧ c ≠ '*' ∧ c ≠ nl ∧ c ≠ bslash := by
  have hc : c = ';' := toLower_eq_semi (by
    rw [h]; decide)
  subst hc
  refine ⟨by decide, by decide, by decide, by decide, by decide, by decide,
    by decide, by decide, by decide, by decide⟩

theorem ws_char_facts {c : Char} (h : c.isWhitespace = true) :
    c ≠ squote ∧ c ≠ dquote ∧ c ≠ btick ∧ c ≠ bslash ∧
      c.toLower ≠ Char.toLower ';' := by
  rcases ws_char_cases h with h | h | h | h <;> subst h <;>
    exact ⟨by decide, by decide, by decide, by decide, by decide⟩

set_option maxHeartbeats 1000000 in
/-- Interior step alignment: away from the right edge of the trimmed
slice, one loop iteration on the original script and on the slice take
the same branch, produce the same state, and advance by the same
amount. -/
theorem stepAligned {q w₁ core w₂ : List Char} {m : Nat}
    (hq : q.take m = w₁ ++ core ++ w₂) (hm : m ≤ q.length)
    (hw₁ : ∀ c ∈ w₁, c.isWhitespace = true)
    (hw₂ : ∀ c ∈ w₂, c.isWhitespace = true)
    (hdelim : m = q.length ∨
      ∃ c, q.get? m = some c ∧ c.toLower = Char.toLower ';')
    {k : Nat} {st : ScanState} {i' : Nat} {st' : ScanState}
    (hint : k + 1 < core.length)
    (hgood : goodStringChar st)
    (hs : scanStep q ';' (w₁.length + k) st = .next i' st') :
    (scanStep core ';' k st = .next (k + 1) st' ∧ i' = w₁.length + k + 1) ∨
    (scanStep core ';' k st = .next (k + 3) st' ∧ i' = w₁.length + k + 3 ∧
      k + 3 ≤ core.length) := by
  have hlen := decomp_len hq hm
  have hkc : k < core.length := by omega
  have hpq : w₁.length + k < q.length := by omega
  have hchar : chAt core k = chAt q (w₁.length + k) := by
    rw [chAt_eq_get?, chAt_eq_get?, align_get hq hm hkc]
  have hnext : core.get? (k + 1) = q.get? (w₁.length + k + 1) := by
    rw [← align_get hq hm hint,
      show w₁.length + (k + 1) = w₁.length + k + 1 from by omega]
  have hprev : (prevCh core k = some bslash) ↔
      (prevCh q (w₁.length + k) = some bslash) := by
    by_cases h0 : k = 0
    · subst h0
      have hl : prevCh core 0 = none := by simp [prevCh]
      rw [hl]
      by_cases hw0 : w₁.length = 0
      · have : prevCh q (w₁.length + 0) = none := by simp [prevCh, hw0]
        rw [this]
      · have hlt : w₁.length - 1 < w₁.length := by omega
        have hr : prevCh q (w₁.length + 0) = w₁.get? (w₁.length - 1) := by
          unfold prevCh
          rw [if_neg (by omega)]
          rw [show w₁.length + 0 - 1 = w₁.length - 1 from by omega]
          exact align_get_w₁ hq hm hlt
        rw [hr]
        cases hg : w₁.get? (w₁.length - 1) with
        | none => simp
        | some c =>
          have hcmem : c ∈ w₁ := List.get?_mem hg
          have := (ws_char_facts (hw₁ c hcmem)).2.2.2.1
          constructor
          · intro hx; exact absurd hx (by simp)
          · intro hx; exact absurd (Option.some.inj hx) this
    · have hk1 : k - 1 < core.length := by omega
      have e : core.get? (k - 1) = q.get? (w₁.length + k - 1) := by
        rw [← align_get hq hm hk1,
          show w₁.length + (k - 1) = w₁.length + k - 1 from by omega]
      unfold prevCh
      rw [if_neg h0, if_neg (by omega), e,
        show w₁.length + k - 1 = w₁.length + k - 1 from rfl]
  have htrip : ∀ {ch : Char}, (ch = squote ∨ ch = dquote ∨ ch = btick) →
      ((w₁.length + k + 2 < q.length ∧
          q.get? (w₁.length + k + 1) = some ch ∧
          q.get? (w₁.length + k + 2) = some ch) ↔
        (k + 2 < core.length ∧
          q.get? (w₁.length + k + 1) = some ch ∧
          core.get? (k + 2) = some ch)) := by
    intro ch hquote
    by_cases h2 : k + 2 < core.length
    · have e2 : core.get? (k + 2) = q.get? (w₁.length + k + 2) := by
        rw [← align_get hq hm h2,
          show w₁.length + (k + 2) = w₁.length + k + 2 from by omega]
      rw [e2]
      have hb : w₁.length + k + 2 < q.length := by omega
      constructor
      · rintro ⟨-, h1, hx⟩; exact ⟨h2, h1, hx⟩
      · rintro ⟨-, h1, hx⟩; exact ⟨hb, h1, hx⟩
    · constructor
      · rintro ⟨hb, h1, hx⟩
        exfalso
        have h2e : w₁.length + k + 2 = w₁.length + core.length := by omega
        rw [h2e] at hx
        rcases boundary_char hq hm hw₂ hdelim hx with hws | hdl
        · rcases (ws_char_facts hws) with ⟨e1, e2, e3, -⟩
          rcases hquote with rfl | rfl | rfl
          · exact e1 rfl
          · exact e2 rfl
          · exact e3 rfl
        · rcases (delim_char_facts hdl) with ⟨e1, e2, e3, -⟩
          rcases hquote with rfl | rfl | rfl
          · exact e1 rfl
          · exact e2 rfl
          · exact e3 rfl
      · rintro ⟨hb, -⟩
        exact absurd hb h2
  unfold scanStep at hs
  rw [if_pos hpq] at hs
  unfold scanStep
  rw [if_pos hkc, hchar, hnext]
  simp only [ne_eq] at hs ⊢
  simp only [hprev]
  by_cases hc1 : ¬(prevCh q (w₁.length + k) = some bslash) ∧
      (chAt q (w₁.length + k) = squote ∨ chAt q (w₁.length + k) = dquote ∨
        chAt q (w₁.length + k) = btick) ∧
      st.isInString = false ∧ st.isInComment = false
  · rw [if_pos hc1] at hs
    rw [if_pos hc1]
    by_cases ht : w₁.length + k + 2 < q.length ∧
        q.get? (w₁.length + k + 1) = some (chAt q (w₁.length + k)) ∧
        q.get? (w₁.length + k + 2) = some (chAt q (w₁.length + k))
    · rw [if_pos ht] at hs
      rw [if_pos ((htrip hc1.2.1).mp ht)]
      injection hs with h1 h2
      right
      exact ⟨by rw [h2], by omega, by
        have := ((htrip hc1.2.1).mp ht).1; omega⟩
    · rw [if_neg ht] at hs
      rw [if_neg (fun hcore => ht ((htrip hc1.2.1).mpr hcore))]
      injection hs with h1 h2
      left
      exact ⟨by rw [h2], by omega⟩
  · rw [if_neg hc1] at hs
    rw [if_neg hc1]
    by_cases hc2 : ((chAt q (w₁.length + k) = '#' ∧
        q.get? (w₁.length + k + 1) = some ' ') ∨
      (chAt q (w₁.length + k) = '-' ∧
        q.get? (w₁.length + k + 1) = some '-') ∨
      (chAt q (w₁.length + k) = '/' ∧
        q.get? (w₁.length + k + 1) = some '*')) ∧ st.isInString = false
    · rw [if_pos hc2] at hs
      rw [if_pos hc2]
      injection hs with h1 h2
      left
      exact ⟨by rw [h2], by omega⟩
    · rw [if_neg hc2] at hs
      rw [if_neg hc2]
      by_cases hc3 : st.isInComment = true ∧
          (((st.commentChar = some '#' ∨ st.commentChar = some '-') ∧
              chAt q (w₁.length + k) = nl) ∨
            (st.commentChar = some '/' ∧ chAt q (w₁.length + k) = '*' ∧
              q.get? (w₁.length + k + 1) = some '/'))
      · rw [if_pos hc3] at hs
        rw [if_pos hc3]
        injection hs with h1 h2
        left
        exact ⟨by rw [h2], by omega⟩
      · rw [if_neg hc3] at hs
        rw [if_neg hc3]
        by_cases hc4 : ¬(prevCh q (w₁.length + k) = some bslash) ∧
            some (chAt q (w₁.length + k)) = st.stringChar ∧
            st.isInString = true
        · rw [if_pos hc4] at hs
          rw [if_pos hc4]
          have hquote : chAt q (w₁.length + k) = squote ∨
              chAt q (w₁.length + k) = dquote ∨
              chAt q (w₁.length + k) = btick := by
            rcases hgood with hg | hg | hg | hg
            · rw [hg] at hc4; exact absurd hc4.2.1 (by simp)
            · rw [hg] at hc4
              exact Or.inl (Option.some.inj hc4.2.1)
            · rw [hg] at hc4
              exact Or.inr (Or.inl (Option.some.inj hc4.2.1))
            · rw [hg] at hc4
              exact Or.inr (Or.inr (Option.some.inj hc4.2.1))
          by_cases htq : st.isInTripleQuotes = true
          · rw [if_pos htq] at hs
            rw [if_pos htq]
            by_cases ht : w₁.length + k + 2 < q.length ∧
                q.get? (w₁.length + k + 1) = some (chAt q (w₁.length + k)) ∧
                q.get? (w₁.length + k + 2) = some (chAt q (w₁.length + k))
            · rw [if_pos ht] at hs
              rw [if_pos ((htrip hquote).mp ht)]
              injection hs with h1 h2
              right
              exact ⟨by rw [h2], by omega, by
                have := ((htrip hquote).mp ht).1; omega⟩
            · rw [if_neg ht] at hs
              rw [if_neg (fun hcore => ht ((htrip hquote).mpr hcore))]
              injection hs with h1 h2
              left
              exact ⟨by rw [h2], by omega⟩
          · rw [if_neg htq] at hs
            rw [if_neg htq]
            injection hs with h1 h2
            left
            exact ⟨by rw [h2], by omega⟩
        · rw [if_neg hc4] at hs
          rw [if_neg hc4]
          by_cases hc5 : (chAt q (w₁.length + k)).toLower = Char.toLower ';' ∧
              st.isInString = false ∧ st.isInComment = false
          · rw [if_pos hc5] at hs
            exact StepRes.noConfusion hs
          · rw [if_neg hc5] at hs
            rw [if_neg hc5]
            injection hs with h1 h2
            left
            exact ⟨by rw [h2], by omega⟩

/-- If the trimmed slice splits at a position, the original script splits
at the aligned position (the delimiter test depends only on the character
and the flags). -/
theorem splitTransfer {q w₁ core w₂ : List Char} {m : Nat}
    (hq : q.take m = w₁ ++ core ++ w₂) (hm : m ≤ q.length)
    {k : Nat} {st : ScanState} {j : Nat}
    (hcs : scanStep core ';' k st = .split j) :
    scanStep q ';' (w₁.length + k) st = .split (w₁.length + k + 1) := by
  have hlen := decomp_len hq hm
  obtain ⟨hj, hkc, hlow, hstr, hcom⟩ := scanStep_split hcs
  have hpq : w₁.length + k < q.length := by omega
  have hchar : chAt core k = chAt q (w₁.length + k) := by
    rw [chAt_eq_get?, chAt_eq_get?, align_get hq hm hkc]
  rw [hchar] at hlow
  obtain ⟨e1, e2, e3, e4, e5, e6, e7, e8, e9, e10⟩ := delim_char_facts hlow
  unfold scanStep
  rw [if_pos hpq]
  rw [if_neg (by
    rintro ⟨-, hq', -⟩
    rcases hq' with h | h | h
    · exact e1 h
    · exact e2 h
    · exact e3 h)]
  rw [if_neg (by
    rintro ⟨hq', -⟩
    rcases hq' with ⟨h, -⟩ | ⟨h, -⟩ | ⟨h, -⟩
    · exact e4 h
    · exact e5 h
    · exact e6 h)]
  rw [if_neg (by
    rintro ⟨-, ⟨-, h⟩ | ⟨-, h, -⟩⟩
    · exact e9 h
    · exact e8 h)]
  rw [if_neg (by rintro ⟨-, -, h⟩; rw [hstr] at h; exact Bool.noConfusion h)]
  rw [if_pos ⟨hlow, hstr, hcom⟩]

/-- Main simulation: if the scanning loop of the original script from an
aligned position yields no split below the right edge of the slice
(it either never splits, or first splits at or beyond the edge), then the
scanning loop of the trimmed slice, started at the aligned position in the
same state, never splits. -/
theorem simNone {q w₁ core w₂ : List Char} {m : Nat}
    (hq : q.take m = w₁ ++ core ++ w₂) (hm : m ≤ q.length)
    (hw₁ : ∀ c ∈ w₁, c.isWhitespace = true)
    (hw₂ : ∀ c ∈ w₂, c.isWhitespace = true)
    (hdelim : m = q.length ∨
      ∃ c, q.get? m = some c ∧ c.toLower = Char.toLower ';')
    (R : Option Nat)
    (hR : R = none ∨ ∃ kk, R = some (kk + 1) ∧ w₁.length + core.length ≤ kk) :
    ∀ n p : Nat, ∀ st : ScanState,
      q.length - p ≤ n → w₁.length ≤ p → p - w₁.length ≤ core.length →
      goodStringChar st →
      loopFrom q ';' p st = R →
      loopFrom core ';' (p - w₁.length) st = none := by
  intro n
  induction n with
  | zero =>
    intro p st hn hw hpc hgood hRp
    have hlen := decomp_len hq hm
    exact loopFrom_stop (by omega)
  | succ n ih =>
    intro p st hn hw hpc hgood hRp
    have hlen := decomp_len hq hm
    by_cases hend : p - w₁.length = core.length
    · exact loopFrom_stop (by omega)
    · have hpcore : p - w₁.length < core.length := by omega
      have hpq : p < q.length := by omega
      by_cases hlast : p - w₁.length + 1 = core.length
      · cases hcs : scanStep core ';' (p - w₁.length) st with
        | stop => exact absurd (scanStep_stop_iff.mp hcs) (by omega)
        | next i'' st'' =>
          rw [loopFrom_next hcs]
          obtain ⟨-, hstep⟩ := scanStep_next_bounds hcs
          exact loopFrom_stop (by omega)
        | split j =>
          exfalso
          have hqs := splitTransfer hq hm hcs
          have hsome := loopFrom_split hqs
          rw [show w₁.length + (p - w₁.length) = p from by omega] at hsome
          rw [hRp] at hsome
          rcases hR with hR | ⟨kk, hRe, hkk⟩
          · rw [hR] at hsome; exact Option.noConfusion hsome
          · rw [hRe] at hsome
            have : kk + 1 = p + 1 := Option.some.inj hsome
            omega
      · cases hs : scanStep q ';' p st with
        | stop => exact absurd (scanStep_stop_iff.mp hs) (by omega)
        | split j =>
          exfalso
          have hsome := loopFrom_split hs
          obtain ⟨hj, -, -⟩ := scanStep_split hs
          rw [hRp] at hsome
          rcases hR with hR | ⟨kk, hRe, hkk⟩
          · rw [hR] at hsome; exact Option.noConfusion hsome
          · rw [hRe] at hsome
            have hjkk : kk + 1 = j := Option.some.inj hsome
            omega
        | next i' st' =>
          have hRnext : loopFrom q ';' i' st' = R := by
            rw [← loopFrom_next hs]; exact hRp
          have hgood' : goodStringChar st' := scanStep_preserves_good hs hgood
          have hkf : scanStep q ';' (w₁.length + (p - w₁.length)) st
              = .next i' st' := by
            rw [show w₁.length + (p - w₁.length) = p from by omega]
            exact hs
          have hint : (p - w₁.length) + 1 < core.length := by omega
          rcases stepAligned hq hm hw₁ hw₂ hdelim hint hgood hkf with
            ⟨hcs, hi⟩ | ⟨hcs, hi, hb⟩
          · rw [loopFrom_next hcs]
            have hr := ih i' st' (by omega) (by omega) (by omega) hgood' hRnext
            rw [show i' - w₁.length = p - w₁.length + 1 from by omega] at hr
            exact hr
          · rw [loopFrom_next hcs]
            have hr := ih i' st' (by omega) (by omega) (by omega) hgood' hRnext
            rw [show i' - w₁.length = p - w₁.length + 3 from by omega] at hr
            exact hr

theorem get?_chAt {cs : List Char} {k : Nat} (h : k < cs.length) :
    cs.get? k = some (chAt cs k) := by
  rw [chAt_eq_get?]
  cases hg : cs.get? k with
  | none => exact absurd (List.get?_eq_none.mp hg) (by omega)
  | some c => rfl

theorem wsWalk {q w₁ core w₂ : List Char} {m : Nat}
    (hq : q.take m = w₁ ++ core ++ w₂) (hm : m ≤ q.length)
    (hw₁ : ∀ c ∈ w₁, c.isWhitespace = true) :
    ∀ dd i : Nat, i + dd = w₁.length →
      loopFrom q ';' i initScan = loopFrom q ';' w₁.length initScan := by
  have hlen := decomp_len hq hm
  intro dd
  induction dd with
  | zero => intro i hi; rw [show i = w₁.length from by omega]
  | succ d ihd =>
    intro i hi
    have hiw : i < w₁.length := by omega
    have hiq : i < q.length := by omega
    have hg : q.get? i = w₁.get? i := align_get_w₁ hq hm hiw
    have hwsc : (chAt q i).isWhitespace = true := by
      rw [get?_chAt hiq] at hg
      cases hgw : w₁.get? i with
      | none => rw [hgw] at hg; exact Option.noConfusion hg
      | some c =>
        rw [hgw] at hg
        have := hw₁ c (List.get?_mem hgw)
        rw [Option.some.inj hg]
        exact this
    rw [loopFrom_ws_skip hiq hwsc]
    exact ihd (i + 1) (by omega)

theorem trim_no_split_of_none {q : List Char}
    (h : loopFrom q ';' 0 initScan = none) :
    loopFrom (trimL q) ';' 0 initScan = none := by
  obtain ⟨w₁, w₂, hq, hw₁, hw₂⟩ := trimL_decomp q
  have hq' : q.take q.length = w₁ ++ trimL q ++ w₂ := by
    rw [List.take_length]; exact hq
  have hwalk := wsWalk hq' (Nat.le_refl _) hw₁ (w₁.length - 0) 0 (by omega)
  have hres : loopFrom q ';' w₁.length initScan = none := by
    rw [← hwalk]; exact h
  have := simNone hq' (Nat.le_refl _) hw₁ hw₂ (Or.inl rfl) none (Or.inl rfl)
    q.length w₁.length initScan (by omega) (Nat.le_refl _) (by omega)
    (Or.inl rfl) hres
  rw [Nat.sub_self] at this
  exact this

theorem trim_take_no_split_of_split {q : List Char} {j : Nat}
    (h : loopFrom q ';' 0 initScan = some j) :
    loopFrom (trimL (q.take (j - 1))) ';' 0 initScan = none := by
  obtain ⟨k, st', hreach, hsplit⟩ := loopFrom_some_reach h
  obtain ⟨hj, hkq, hlow, -, -⟩ := scanStep_split hsplit
  subst hj
  rw [show k + 1 - 1 = k from by omega]
  obtain ⟨w₁, w₂, hdec, hw₁, hw₂⟩ := trimL_decomp (q.take k)
  have htt : (q.take k).take k = q.take k := by
    rw [List.take_take, Nat.min_self]
  have hq' : q.take k = w₁ ++ trimL (q.take k) ++ w₂ := hdec
  have hmk : k ≤ q.length := by omega
  have hlen := decomp_len hq' hmk
  have hdelim : k = q.length ∨
      ∃ c, q.get? k = some c ∧ c.toLower = Char.toLower ';' :=
    Or.inr ⟨chAt q k, get?_chAt hkq, hlow⟩
  have hwalk := wsWalk hq' hmk hw₁ (w₁.length - 0) 0 (by omega)
  have hres : loopFrom q ';' w₁.length initScan = some (k + 1) := by
    rw [← hwalk]; exact h
  have := simNone hq' hmk hw₁ hw₂ hdelim (some (k + 1))
    (Or.inr ⟨k, rfl, by omega⟩)
    q.length w₁.length initScan (by omega) (Nat.le_refl _) (by omega)
    (Or.inl rfl) hres
  rw [Nat.sub_self] at this
  exact this

theorem getStatements_v2_stmt_shape (q : List Char) :
    (getStatements_v2 q ';').1 = trimL q ∧
        loopFrom q ';' 0 initScan = none ∨
      ∃ j, (getStatements_v2 q ';').1 = trimL (q.take (j - 1)) ∧
        loopFrom q ';' 0 initScan = some j := by
  unfold getStatements_v2
  cases hl : loopFrom q ';' 0 initScan with
  | none => exact Or.inl ⟨rfl, rfl⟩
  | some j => exact Or.inr ⟨j, rfl, rfl⟩

/-- Every statement emitted by the second version of `parse` is trimmed,
non-empty after trimming, and contains no statement-terminating
semicolon of its own. -/
theorem parse_v2_elem_shape {q s : List Char} (hs : s ∈ parse_v2 q) :
    trimL s = s ∧ trimL s ≠ [] ∧ loopFrom s ';' 0 initScan = none := by
  refine @parseGo_v2_all
    (fun t => trimL t = t ∧ trimL t ≠ [] ∧ loopFrom t ';' 0 initScan = none)
    ?_ (q.length + 1) q []
    (by intro x hx; exact absurd hx (List.not_mem_nil x)) s hs
  intro r hne
  rcases getStatements_v2_stmt_shape r with ⟨he, hnone⟩ | ⟨j, he, hsome⟩
  · rw [he] at hne ⊢
    exact ⟨trimL_idem r, hne, trim_no_split_of_none hnone⟩
  · rw [he] at hne ⊢
    exact ⟨trimL_idem _, hne, trim_take_no_split_of_split hsome⟩

theorem parse_v2_singleton {s : List Char} (h1 : trimL s = s)
    (h2 : trimL s ≠ []) (h3 : loopFrom s ';' 0 initScan = none) :
    parse_v2 s = [s] := by
  have hsr : getStatements_v2 s ';' = (s, none) := by
    unfold getStatements_v2
    rw [h3, h1]
  show parseGo_v2 (s.length + 1) s [] = [s]
  simp only [parseGo_v2, hsr]
  rw [h1, if_neg (by rw [h1] at h2; exact h2)]
  rfl

/-- Idempotence of the second version of the splitter on its own
output. -/
theorem parse_v2_idem {q s : List Char} (hs : s ∈ parse_v2 q) :
    parse_v2 s = [s] := by
  obtain ⟨h1, h2, h3⟩ := parse_v2_elem_shape hs
  exact parse_v2_singleton h1 h2 h3

/-! ### Comment handling facts used by the comment-related claims -/

theorem kwGo_comment_start {cs : List Char} {fuel i : Nat} {inC : Bool}
    {cc : Option Char} {kw : List Char} (h : i < cs.length)
    (h1 : cs.get? i = some '-') (h2 : cs.get? (i + 1) = some '-') :
    kwGo cs (fuel + 1) i inC cc kw = kwGo cs fuel (i + 1) true (some '-') kw := by
  have hch : chAt cs i = '-' := by rw [chAt_eq_get?, h1]; rfl
  simp only [kwGo]
  rw [if_pos h, if_pos (Or.inr (Or.inl ⟨hch, h2⟩)), hch]

theorem kwGo_comment_exit_slash {cs : List Char} {fuel i : Nat}
    {kw : List Char} (h : i < cs.length)
    (h1 : cs.get? i = some '*') (h2 : cs.get? (i + 1) = some '/') :
    kwGo cs (fuel + 1) i true (some '/') kw
      = kwGo cs fuel (i + 2) false none kw := by
  have hch : chAt cs i = '*' := by rw [chAt_eq_get?, h1]; rfl
  simp only [kwGo]
  rw [if_pos h,
    if_neg (by
      rw [hch]
      rintro (⟨h', -⟩ | ⟨h', -⟩ | ⟨h', -⟩) <;> exact absurd h' (by decide))]
  rw [if_pos ⟨trivial, Or.inr ⟨trivial, hch, h2⟩⟩, if_pos trivial]

theorem scanStep_comment_exit_slash {cs : List Char} {d : Char} {i : Nat}
    {st : ScanState} (h : i < cs.length)
    (h1 : cs.get? i = some '*') (h2 : cs.get? (i + 1) = some '/')
    (hC : st.isInComment = true) (hcc : st.commentChar = some '/') :
    scanStep cs d i st
      = .next (i + 1) { st with isInComment := false, commentChar := none } := by
  have hch : chAt cs i = '*' := by rw [chAt_eq_get?, h1]; rfl
  unfold scanStep
  rw [if_pos h,
    if_neg (by
      rintro ⟨-, hq', -⟩
      rw [hch] at hq'
      rcases hq' with h' | h' | h' <;> exact absurd h' (by decide)),
    if_neg (by
      rw [hch]
      rintro ⟨⟨h', -⟩ | ⟨h', -⟩ | ⟨h', -⟩, -⟩ <;> exact absurd h' (by decide)),
    if_pos ⟨hC, Or.inr ⟨hcc, hch, h2⟩⟩]

theorem scanStep_comment_overwrite {cs : List Char} {d : Char} {i : Nat}
    {st : ScanState} (h : i < cs.length)
    (h1 : cs.get? i = some '-') (h2 : cs.get? (i + 1) = some '-')
    (hS : st.isInString = false) :
    scanStep cs d i st
      = .next (i + 1) { st with isInComment := true, commentChar := some '-' } := by
  have hch : chAt cs i = '-' := by rw [chAt_eq_get?, h1]; rfl
  unfold scanStep
  rw [if_pos h,
    if_neg (by
      rintro ⟨-, hq', -⟩
      rw [hch] at hq'
      rcases hq' with h' | h' | h' <;> exact absurd h' (by decide)),
    if_pos ⟨Or.inr (Or.inl ⟨hch, h2⟩), hS⟩, hch]

/-! ### Classifier characterization -/

/-- C3 (amended): the classifier tests the uppercased first keyword with
`startsWith` (prefix test, first match wins in the order Query, DML, DDL),
not set membership; empty input is Unspecified.  The claim's membership
reading fails on keywords that merely begin with a listed word (see the
counterexample). -/
theorem c3_classifier_prefix_rule (sql : List Char) :
    (getStatementType sql = .QUERY ↔ sql ≠ [] ∧
      (startsW (kwUpper sql)
          ("SELECT".data) = true ∨
        startsW (kwUpper sql)
          ("WITH".data) = true)) ∧
    (getStatementType sql = .DML ↔ sql ≠ [] ∧
      ¬(startsW (kwUpper sql)
          ("SELECT".data) = true ∨
        startsW (kwUpper sql)
          ("WITH".data) = true) ∧
      (startsW (kwUpper sql)
          ("INSERT".data) = true ∨
        startsW (kwUpper sql)
          ("UPDATE".data) = true ∨
        startsW (kwUpper sql)
          ("DELETE".data) = true)) ∧
    (getStatementType sql = .DDL ↔ sql ≠ [] ∧
      ¬(startsW (kwUpper sql)
          ("SELECT".data) = true ∨
        startsW (kwUpper sql)
          ("WITH".data) = true) ∧
      ¬(startsW (kwUpper sql)
          ("INSERT".data) = true ∨
        startsW (kwUpper sql)
          ("UPDATE".data) = true ∨
        startsW (kwUpper sql)
          ("DELETE".data) = true) ∧
      (startsW (kwUpper sql)
          ("CREATE".data) = true ∨
        startsW (kwUpper sql)
          ("ALTER".data) = true ∨
        startsW (kwUpper sql)
          ("DROP".data) = true)) ∧
    (getStatementType sql = .UNSPECIFIED ↔ sql = [] ∨
      (¬(startsW (kwUpper sql)
          ("SELECT".data) = true ∨
        startsW (kwUpper sql)
          ("WITH".data) = true) ∧
      ¬(startsW (kwUpper sql)
          ("INSERT".data) = true ∨
        startsW (kwUpper sql)
          ("UPDATE".data) = true ∨
        startsW (kwUpper sql)
          ("DELETE".data) = true) ∧
      ¬(startsW (kwUpper sql)
          ("CREATE".data) = true ∨
        startsW (kwUpper sql)
          ("ALTER".data) = true ∨
        startsW (kwUpper sql)
          ("DROP".data) = true))) := by
  unfold getStatementType
  by_cases h0 : sql = []
  · rw [if_pos h0]
    refine ⟨?_, ?_, ?_, ?_⟩ <;> constructor <;> intro hx <;> simp_all
  · rw [if_neg h0]
    split_ifs with hQ hM hD <;>
      refine ⟨?_, ?_, ?_, ?_⟩ <;> constructor <;> intro hx <;> simp_all

theorem kwGo_mono {cs : List Char} :
    ∀ {f₁ f₂ i : Nat} {inC : Bool} {cc : Option Char} {kw : List Char},
      cs.length - i < f₁ → cs.length - i < f₂ →
      kwGo cs f₁ i inC cc kw = kwGo cs f₂ i inC cc kw := by
  intro f₁
  induction f₁ with
  | zero => intro f₂ i inC cc kw h1 _; omega
  | succ a ih =>
    intro f₂ i inC cc kw h1 h2
    match f₂, h2 with
    | b + 1, h2 =>
      simp only [kwGo]
      split_ifs <;> first | rfl | exact ih (by omega) (by omega)

/-! ### Claims -/

/-- C1: a semicolon inside a string literal never terminates a statement:
`split("SELECT ';' FROM T")` is one statement, and in general the
scanning loop only ever breaks at a position reached with the string flag
(and the comment flag) off, whose character is the delimiter `;`. -/
theorem c1_string_semicolon_never_splits :
    parseS_v2 "SELECT ';' FROM T" = ["SELECT ';' FROM T"] ∧
    ∀ (cs : List Char) (i : Nat) (st : ScanState) (j : Nat),
      loopFrom cs ';' i st = some j →
      ∃ k st', Reaches cs ';' (i, st) (k, st') ∧ j = k + 1 ∧
        cs.get? k = some ';' ∧ st'.isInString = false ∧
        st'.isInComment = false := by
  refine ⟨by decide, ?_⟩
  intro cs i st j h
  obtain ⟨k, st', hr, hsplit⟩ := loopFrom_some_reach h
  obtain ⟨hj, hk, hlow, hstr, hcom⟩ := scanStep_split hsplit
  have hch : chAt cs k = ';' := toLower_eq_semi (by rw [hlow]; decide)
  exact ⟨k, st', hr, hj, by rw [get?_chAt hk, hch], hstr, hcom⟩

/-- Witness for C1 at a concrete input. -/
theorem c1_witness :
    ∃ k st', Reaches (";".data) ';' ((0 : Nat), initScan) (k, st') ∧
      1 = k + 1 ∧ (";".data).get? k = some ';' ∧
      st'.isInString = false ∧ st'.isInComment = false :=
  c1_string_semicolon_never_splits.2 (";".data) 0 initScan 1 (by decide)

/-- C2 counterexample: the first observed version of the splitter emits
the terminating semicolon as part of the statement text. -/
theorem c2_counterexample :
    parseS_v1 "SELECT 1; SELECT 2" = ["SELECT 1;", "SELECT 2"] ∧
      ("SELECT 1;".data).getLast? = some ';' := by
  refine ⟨by decide, by decide⟩

/-- C2 (amended): in the second observed version, whenever the scan hits a
delimiter the emitted statement is the trim of the text strictly before
the semicolon, excluding it; the first version includes the semicolon
(see the counterexample). -/
theorem c2_statement_excludes_delimiter :
    parseS_v2 "SELECT 1; SELECT 2" = ["SELECT 1", "SELECT 2"] ∧
    ∀ (q : List Char) (j : Nat),
      loopFrom q ';' 0 initScan = some j →
      ∃ k, j = k + 1 ∧ q.get? k = some ';' ∧
        (getStatements_v2 q ';').1 = trimL (q.take k) ∧
        (getStatements_v2 q ';').2 = some (q.drop (k + 1)) := by
  refine ⟨by decide, ?_⟩
  intro q j h
  obtain ⟨k, st', hr, hsplit⟩ := loopFrom_some_reach h
  obtain ⟨hj, hk, hlow, -, -⟩ := scanStep_split hsplit
  have hch : chAt q k = ';' := toLower_eq_semi (by rw [hlow]; decide)
  subst hj
  refine ⟨k, rfl, by rw [get?_chAt hk, hch], ?_, ?_⟩
  · unfold getStatements_v2
    rw [h]
    unfold getQueryParts_v2
    simp
  · unfold getStatements_v2
    rw [h]
    unfold getQueryParts_v2
    simp

/-- Witness for C2 at a concrete input. -/
theorem c2_witness :
    ∃ k, 2 = k + 1 ∧ ("a;b".data).get? k = some ';' ∧
      (getStatements_v2 ("a;b".data) ';').1 = trimL (("a;b".data).take k) ∧
      (getStatements_v2 ("a;b".data) ';').2 = some (("a;b".data).drop (k + 1)) :=
  c2_statement_excludes_delimiter.2 ("a;b".data) 2 (by decide)

/-- C3 counterexample: the classifier tests with `startsWith`, not set
membership, so WITHDRAWAL (which merely begins with WITH) classifies as a
query. -/
theorem c3_counterexample :
    getStatementTypeS "WITHDRAWAL FROM accounts" = .QUERY := by decide

/-- C4 counterexample: inside a slash-star comment a `--` overwrites the
remembered comment character, so the scanner waits for a newline, never
exits at the closing delimiter, and the statement classifies as
Unspecified rather than Query. -/
theorem c4_counterexample :
    getStatementTypeS "/* a -- b */ SELECT 1" = .UNSPECIFIED := by decide

/-- C4 (amended): comment-start markers are not restricted to Normal
mode.  The keyword scanner checks nothing at all, and the splitter checks
only that the scanner is not inside a string, so while already in a
comment an encountered `--` re-enters comment mode and overwrites the
remembered comment character. -/
theorem c4_comment_start_any_mode :
    (∀ (cs : List Char) (fuel i : Nat) (inC : Bool) (cc : Option Char)
        (kw : List Char), i < cs.length → cs.get? i = some '-' →
        cs.get? (i + 1) = some '-' →
        kwGo cs (fuel + 1) i inC cc kw
          = kwGo cs fuel (i + 1) true (some '-') kw) ∧
    (∀ (cs : List Char) (d : Char) (i : Nat) (st : ScanState),
        i < cs.length → cs.get? i = some '-' → cs.get? (i + 1) = some '-' →
        st.isInString = false →
        scanStep cs d i st = .next (i + 1)
          { st with isInComment := true, commentChar := some '-' }) :=
  ⟨fun _ _ _ _ _ _ h h1 h2 => kwGo_comment_start h h1 h2,
   fun _ _ _ _ h h1 h2 hS => scanStep_comment_overwrite h h1 h2 hS⟩

/-- Witness for C4: from a state already inside a `/*` comment, a `--`
changes the remembered comment character to `-`. -/
theorem c4_witness :
    kwGo ['-', '-'] 3 0 true (some '/') []
        = kwGo ['-', '-'] 2 1 true (some '-') [] ∧
    scanStep ['-', '-'] ';' 0
        ⟨true, some '/', false, none, false⟩
      = .next 1 ⟨true, some '-', false, none, false⟩ :=
  ⟨c4_comment_start_any_mode.1 ['-', '-'] 2 0 true (some '/') []
      (by decide) (by decide) (by decide),
   c4_comment_start_any_mode.2 ['-', '-'] ';' 0
      ⟨true, some '/', false, none, false⟩
      (by decide) (by decide) (by decide) rfl⟩

/-- C5 counterexample: in the splitter, the closing slash of `*/` is
re-examined, so a `*` immediately after re-enters a comment and the
script is not split at its semicolon. -/
theorem c5_counterexample :
    parseS_v2 "/*a*/* x;y" = ["/*a*/* x;y"] := by decide

/-- C5 (amended): the keyword scanner consumes both characters of a
closing `*/` (the index advances by two), but the splitter consumes only
the `*` (the index advances by one, so the `/` is re-examined in Normal
mode); the keyword scanner therefore classifies `/*a*/select 1` as a
query. -/
theorem c5_comment_exit_consumption :
    (∀ (cs : List Char) (fuel i : Nat) (kw : List Char),
        i < cs.length → cs.get? i = some '*' → cs.get? (i + 1) = some '/' →
        kwGo cs (fuel + 1) i true (some '/') kw
          = kwGo cs fuel (i + 2) false none kw) ∧
    (∀ (cs : List Char) (d : Char) (i : Nat) (st : ScanState),
        i < cs.length → cs.get? i = some '*' → cs.get? (i + 1) = some '/' →
        st.isInComment = true → st.commentChar = some '/' →
        scanStep cs d i st = .next (i + 1)
          { st with isInComment := false, commentChar := none }) ∧
    getStatementTypeS "/*a*/select 1" = .QUERY :=
  ⟨fun _ _ _ _ h h1 h2 => kwGo_comment_exit_slash h h1 h2,
   fun _ _ _ _ h h1 h2 hC hcc => scanStep_comment_exit_slash h h1 h2 hC hcc,
   by decide⟩

/-- Witness for C5 at a concrete input. -/
theorem c5_witness :
    kwGo ['*', '/'] 3 0 true (some '/') []
        = kwGo ['*', '/'] 2 2 false none [] ∧
    scanStep ['*', '/'] ';' 0
        ⟨true, some '/', false, none, false⟩
      = .next 1 ⟨false, none, false, none, false⟩ :=
  ⟨c5_comment_exit_consumption.1 ['*', '/'] 2 0 []
      (by decide) (by decide) (by decide),
   c5_comment_exit_consumption.2.1 ['*', '/'] ';' 0
      ⟨true, some '/', false, none, false⟩
      (by decide) (by decide) (by decide) rfl rfl⟩

/-- C6 counterexample: the first observed version emits the text between
two consecutive semicolons as a bare `;` statement, so the example yields
three statements, not two. -/
theorem c6_counterexample :
    parseS_v1 "SELECT 1;; SELECT 2" = ["SELECT 1;", ";", "SELECT 2"] := by
  decide

/-- C6 (amended): neither version ever outputs an empty or
whitespace-only statement, and in the second (delimiter-excluding)
version two consecutive semicolons produce no entry between them, so the
example yields exactly two statements; in the first version the entry
between them is the bare delimiter `;` (see the counterexample). -/
theorem c6_no_blank_statements :
    (∀ q s : List Char, s ∈ parse_v2 q → s ≠ [] ∧ trimL s ≠ []) ∧
    (∀ q s : List Char, s ∈ parse_v1 q → s ≠ [] ∧ trimL s ≠ []) ∧
    parseS_v2 "SELECT 1;; SELECT 2" = ["SELECT 1", "SELECT 2"] := by
  refine ⟨?_, ?_, by decide⟩
  · intro q s hs
    have h := @parseGo_v2_all (fun t => trimL t ≠ []) (fun _ hne => hne)
      (q.length + 1) q []
      (by intro x hx; exact absurd hx (List.not_mem_nil x)) s hs
    exact ⟨fun he => h (by rw [he]; rfl), h⟩
  · intro q s hs
    have h := @parseGo_v1_all (fun t => trimL t ≠ []) (fun _ hne => hne)
      (q.length + 1) q []
      (by intro x hx; exact absurd hx (List.not_mem_nil x)) s hs
    exact ⟨fun he => h (by rw [he]; rfl), h⟩

/-- Witness for C6 at a concrete input. -/
theorem c6_witness :
    ("SELECT 1".data ≠ [] ∧ trimL ("SELECT 1".data) ≠ []) :=
  c6_no_blank_statements.1 ("SELECT 1;; SELECT 2".data) ("SELECT 1".data)
    (by decide)

/-- C7: the two observed versions of the splitter disagree on whether the
emitted statement text carries the terminating semicolon, so they are not
extensionally equal. -/
theorem c7_versions_disagree :
    parseS_v1 "SELECT 1; SELECT 2" = ["SELECT 1;", "SELECT 2"] ∧
    parseS_v2 "SELECT 1; SELECT 2" = ["SELECT 1", "SELECT 2"] ∧
    parseS_v1 "SELECT 1; SELECT 2" ≠ parseS_v2 "SELECT 1; SELECT 2" := by
  refine ⟨by decide, by decide, by decide⟩

/-- C8: the (delimiter-excluding) splitter is idempotent on its own
output: re-splitting any emitted statement returns that statement
unchanged, as a one-element list. -/
theorem c8_split_idempotent :
    ∀ q s : List Char, s ∈ parse_v2 q → parse_v2 s = [s] :=
  fun _ _ hs => parse_v2_idem hs

/-- Witness for C8 at a concrete input. -/
theorem c8_witness :
    parse_v2 ("SELECT 1".data) = ["SELECT 1".data] :=
  c8_split_idempotent ("SELECT 1; SELECT 2".data) ("SELECT 1".data)
    (by decide)

/-- C9: at every iteration of the splitter scanning loop, from the
initial state, the string flag and the comment flag are never both set. -/
theorem c9_string_comment_exclusive :
    ∀ (cs : List Char) (d : Char) (p : Nat × ScanState),
      Reaches cs d ((0 : Nat), initScan) p →
      ¬(p.2.isInString = true ∧ p.2.isInComment = true) :=
  fun _ _ _ h => reaches_excl h

/-- Witness for C9 at the initial state. -/
theorem c9_witness :
    ¬(initScan.isInString = true ∧ initScan.isInComment = true) :=
  c9_string_comment_exclusive [] ';' ((0 : Nat), initScan)
    Relation.ReflTransGen.refl

/-- C10: both versions of the splitter make strict progress (the rest of
the script after a split is strictly shorter), all loops compute the same
result for any sufficient fuel (so the iteration terminates within
`length + 1` rounds), and the classifier scanning loop is likewise
fuel-insensitive; together with the totality of every definition in this
file, `parse` and `getStatementType` are total and raise no errors. -/
theorem c10_total_terminating :
    (∀ q s r : List Char, getStatements_v2 q ';' = (s, some r) →
      r.length < q.length) ∧
    (∀ q s r : List Char, getStatements_v1 q ';' = (s, some r) →
      r.length < q.length) ∧
    (∀ (f : Nat) (q : List Char) (acc : List (List Char)), q.length < f →
      parseGo_v2 f q acc = parseGo_v2 (q.length + 1) q acc) ∧
    (∀ (f : Nat) (q : List Char) (acc : List (List Char)), q.length < f →
      parseGo_v1 f q acc = parseGo_v1 (q.length + 1) q acc) ∧
    (∀ (cs : List Char) (d : Char) (f₁ f₂ i : Nat) (st : ScanState),
      cs.length - i < f₁ → cs.length - i < f₂ →
      stGo cs d f₁ i st = stGo cs d f₂ i st) ∧
    (∀ (cs : List Char) (f₁ f₂ i : Nat) (inC : Bool) (cc : Option Char)
      (kw : List Char), cs.length - i < f₁ → cs.length - i < f₂ →
      kwGo cs f₁ i inC cc kw = kwGo cs f₂ i inC cc kw) := by
  refine ⟨?_, ?_, ?_, ?_, ?_, ?_⟩
  · intro q s r h
    exact getStatements_v2_rest_lt (by rw [h])
  · intro q s r h
    exact getStatements_v1_rest_lt (by rw [h])
  · intro f q acc h
    exact parseGo_v2_mono h (Nat.lt_succ_self _)
  · intro f q acc h
    exact parseGo_v1_mono h (Nat.lt_succ_self _)
  · intro cs d f₁ f₂ i st h1 h2
    exact stGo_mono h1 h2
  · intro cs f₁ f₂ i inC cc kw h1 h2
    exact kwGo_mono h1 h2

/-- Witness for C10 at concrete inputs. -/
theorem c10_witness :
    ("b".data).length < ("a;b".data).length ∧
      parseGo_v2 5 ("a".data) [] = parseGo_v2 2 ("a".data) [] ∧
      stGo ("a".data) ';' 9 0 initScan = stGo ("a".data) ';' 2 0 initScan :=
  ⟨c10_total_terminating.1 ("a;b".data) ("a".data) ("b".data) (by decide),
   c10_total_terminating.2.2.1 5 ("a".data) [] (by decide),
   c10_total_terminating.2.2.2.2.1 ("a".data) ';' 9 2 0 initScan
     (by decide) (by decide)⟩

end Spanner
